import Mathlib

/-!
Verification of the toolpath core: the document model (`types.rs`), the DAG
query engine (`query.rs`) and the track session engine (`cmd_track.rs`).

The data model and the operations are shallowly embedded: Rust structs become
Lean structures, `HashMap<u64, String>` session maps become functions
`Nat → Option String` (lookup, insert and contains-key are the only operations
the engine uses), and every fallible operation returns `Except String`.
The `record_step` embedding returns the pair of the operation result and the
session as persisted after the call: the revisit branch and the error branch
return the incoming session unchanged, exactly as the CLI returns before any
save in those branches.
-/

namespace Toolpath

/-! ## Decimal rendering of step counters

The engine mints step ids with the Rust format string `"step-{:03}"`: the
decimal rendering of the counter, left-padded with zeros to at least three
characters. We embed decimal rendering directly (least-significant digit
first, with a structural fuel argument so that everything reduces by `rfl`).
-/

/-- One decimal digit as a character. -/
def digitChar (d : Nat) : Char :=
  if d = 0 then '0' else if d = 1 then '1' else if d = 2 then '2'
  else if d = 3 then '3' else if d = 4 then '4' else if d = 5 then '5'
  else if d = 6 then '6' else if d = 7 then '7' else if d = 8 then '8' else '9'

/-- Value of a decimal digit character (unspecified digits map to 9). -/
def digitVal (c : Char) : Nat :=
  if c = '0' then 0 else if c = '1' then 1 else if c = '2' then 2
  else if c = '3' then 3 else if c = '4' then 4 else if c = '5' then 5
  else if c = '6' then 6 else if c = '7' then 7 else if c = '8' then 8 else 9

/-- Decimal digits of `n`, least significant first; `fuel ≥ n` suffices. -/
def toDigitsAux : Nat → Nat → List Nat
  | 0, n => [n]
  | fuel + 1, n => if n < 10 then [n] else n % 10 :: toDigitsAux fuel (n / 10)

/-- Characters of the decimal rendering of `n`, most significant first. -/
def natChars (n : Nat) : List Char :=
  ((toDigitsAux n n).map digitChar).reverse

/-- Decimal rendering of a natural number (the Rust `{}` format). -/
def natToString (n : Nat) : String :=
  String.mk (natChars n)

/-- Characters of the Rust `{:03}` rendering of `n`: the decimal rendering of
`n` left-padded with zeros to at least three characters (`n < 10` exactly when
the rendering has one character, `n < 100` exactly when it has at most two). -/
def pad3Chars (n : Nat) : List Char :=
  if n < 10 then '0' :: '0' :: natChars n
  else if n < 100 then '0' :: natChars n
  else natChars n

/-- Step id minted for step counter value `n`: `format!("step-{:03}", n)`. -/
def mkStepId (n : Nat) : String :=
  String.mk ('s' :: 't' :: 'e' :: 'p' :: '-' :: pad3Chars n)

/-- Base-ten value of a digit character list, most significant first. -/
def valChars (cs : List Char) : Nat :=
  cs.foldl (fun a c => a * 10 + digitVal c) 0

/-! ## Document model (`types.rs`)

Only the fields the engine and the query functions touch are modelled; the
serialization-only metadata bags (`PathMeta`, the extra fields of `StepMeta`,
signatures, actor definitions) are omitted, as no claim mentions them.
-/

/-- Step identity and lineage (`StepIdentity` in `types.rs`). -/
structure StepIdentity where
  id : String
  parents : List String
  actor : String
  timestamp : String
deriving DecidableEq, Repr

/-- A change to a single artifact (`ArtifactChange` in `types.rs`); the
structural variant is abstracted to its type tag, the engine only ever
produces `raw` changes. -/
structure ArtifactChange where
  raw : Option String
  structural : Option String
deriving DecidableEq, Repr

/-- Step metadata (`StepMeta` in `types.rs`), reduced to the one field the
track engine writes (`intent`); the other fields are serialization-only. -/
structure StepMeta where
  intent : Option String
deriving DecidableEq, Repr

/-- The atomic unit of provenance (`Step` in `types.rs`). The `change` map
from artifact key to change is modelled as an association list in insertion
order. -/
structure Step where
  step : StepIdentity
  change : List (String × ArtifactChange)
  meta : Option StepMeta
deriving DecidableEq, Repr

/-- Root context for a path (`Base` in `types.rs`). -/
structure Base where
  uri : String
  ref_str : Option String
deriving DecidableEq, Repr

/-- Path identity and context (`PathIdentity` in `types.rs`). -/
structure PathIdentity where
  id : String
  base : Option Base
  head : String
deriving DecidableEq, Repr

/-- An ordered sequence of steps forming a DAG (`Path` in `types.rs`); the
serialization-only `meta` bag (which carries the embedded track state on
disk) is not part of the in-memory model. -/
structure Path where
  path : PathIdentity
  steps : List Step
deriving DecidableEq, Repr

/-- Builder `Step::new` from `types.rs`. -/
def Step.new (id actor timestamp : String) : Step :=
  { step := { id := id, parents := [], actor := actor, timestamp := timestamp },
    change := [], meta := none }

/-- Builder `Step::with_parent` from `types.rs`: pushes a parent id. -/
def Step.with_parent (s : Step) (p : String) : Step :=
  { s with step := { s.step with parents := s.step.parents ++ [p] } }

/-- Builder `Step::with_raw_change` from `types.rs`: inserts a raw diff under
the artifact key. -/
def Step.with_raw_change (s : Step) (artifact diff : String) : Step :=
  { s with change := s.change ++ [(artifact, { raw := some diff, structural := none })] }

/-! ## Query engine (`query.rs`) -/

/-- Lookup in the id-to-step map built by `ancestors` via `collect()` on a
`HashMap`: a later step with the same id overwrites an earlier one, which the
left fold reproduces. -/
def stepLookup (steps : List Step) (i : String) : Option Step :=
  steps.foldl (fun acc s => if s.step.id = i then some s else acc) none

/-- The body of the `while let Some(id) = stack.pop()` loop of `ancestors`.
The Rust loop terminates because every id is expanded at most once; the
embedding makes each iteration consume one unit of fuel and signals fuel
exhaustion with `none` (the termination theorem shows the standard fuel is
never exhausted). The list `visited` plays the role of the `result` set;
parents are pushed so that the head of the list is the top of the stack. -/
def ancestorsLoop (steps : List Step) : Nat → List String → List String → Option (List String)
  | 0, _, _ => none
  | _ + 1, [], visited => some visited
  | fuel + 1, i :: stack, visited =>
    if i ∈ visited then
      ancestorsLoop steps fuel stack visited
    else
      match stepLookup steps i with
      | some s => ancestorsLoop steps fuel (s.step.parents.reverse ++ stack) (i :: visited)
      | none => ancestorsLoop steps fuel stack (i :: visited)

/-- Every parent id mentioned by any step. -/
def allParents (steps : List Step) : List String :=
  steps.foldr (fun s acc => s.step.parents ++ acc) []

/-- Largest number of parents of any step. -/
def maxParents (steps : List Step) : Nat :=
  steps.foldr (fun s acc => max s.step.parents.length acc) 0

/-- Fuel sufficient for `ancestorsLoop` started on `[head_id]`. -/
def ancestorsFuel (steps : List Step) (head_id : String) : Nat :=
  (head_id :: allParents steps).length * (maxParents steps + 2) + 2

/-- The `ancestors` walk with its standard fuel. -/
def ancestorsCore (steps : List Step) (head_id : String) : Option (List String) :=
  ancestorsLoop steps (ancestorsFuel steps head_id) [head_id] []

/-- Walk the parent chain from `head_id`, returning all ancestor step ids,
inclusive (`ancestors` in `query.rs`; the Rust function returns a `HashSet`,
so only membership in the returned list is meaningful). -/
def ancestors (steps : List Step) (head_id : String) : List String :=
  (ancestorsCore steps head_id).getD [head_id]

/-- Steps not on the path to `head_id` (`dead_ends` in `query.rs`): filter the
input, keeping steps whose id is not in the ancestor set. -/
def dead_ends (steps : List Step) (head_id : String) : List Step :=
  steps.filter (fun s => decide (s.step.id ∉ ancestors steps head_id))

/-- Reachability along parent edges: `Reach steps x z` holds when `z` is
reached from `x` by following `parents` backward zero or more times, each hop
resolving its step through the same last-wins id lookup the walk uses. -/
inductive Reach (steps : List Step) : String → String → Prop
  | refl (x : String) : Reach steps x x
  | tail {x z : String} (s : Step) (y : String) :
      stepLookup steps x = some s → y ∈ s.step.parents → Reach steps y z →
      Reach steps x z

/-! ## Track session engine (`cmd_track.rs`) -/

/-- Result of recording a step (`StepResult` in `cmd_track.rs`). -/
inductive StepResult where
  | Created (id : String)
  | Skip
deriving DecidableEq, Repr

/-- Session bookkeeping (`TrackState` in `cmd_track.rs`); the two `HashMap`s
keyed by sequence number are modelled as functions to `Option`. -/
structure TrackState where
  version : Nat
  file : String
  default_actor : String
  buffer_cache : Nat → Option String
  seq_to_step : Nat → Option String
  step_counter : Nat
  created_at : String

/-- A live session: the Path under construction together with its track
state. On disk the two are one document; every operation loads both and, on
success, saves both. -/
structure Session where
  doc : Path
  state : TrackState

/-- Modelled from the spec: the content diffing collaborator (spec section 6;
the `similar` crate behind `compute_diff` in `cmd_track.rs`). Given two full
texts it produces a unified diff string, or signals no difference; the diff
is empty exactly when the inputs are equal, since the line tokenization of a
string is unique and the unified diff of equal token lists has no hunks. The
diff text itself is opaque to the engine, so a marker string stands in for
the hunk body. -/
def compute_diff (old new : String) : Option String :=
  if old = new then none
  else some ("@@ -" ++ old ++ " +" ++ new)

/-- Core of `track init` (`init_session` in `cmd_track.rs`): a Path with no
steps and head `"none"`, with sequence 0 seeded with the initial content.
The impure inputs (session id, current time) are passed as arguments. -/
def init_session (content file actor : String) (base : Option Base)
    (session_id now : String) : Session :=
  { doc := { path := { id := session_id, base := base, head := "none" }, steps := [] },
    state := { version := 1, file := file, default_actor := actor,
               buffer_cache := fun k => if k = 0 then some content else none,
               seq_to_step := fun _ => none,
               step_counter := 0, created_at := now } }

/-- Core of `track step` (`record_step` in `cmd_track.rs`). The returned
session is the session as persisted after the call: the revisit branch and
the unknown-parent error branch return before saving, so they return the
incoming session unchanged. `now` stands for the impure current time used
when no time override is given. -/
def record_step (sess : Session) (content : String) (seq parent_seq : Nat)
    (actor_override time_override : Option String) (now : String) :
    Except String StepResult × Session :=
  let state := sess.state
  if (state.buffer_cache seq).isSome then
    (Except.ok StepResult.Skip, sess)
  else
    match state.buffer_cache parent_seq with
    | none =>
      (Except.error ("parent seq " ++ natToString parent_seq ++ " not found in buffer cache"),
       sess)
    | some parent_content =>
      let diff := compute_diff parent_content content
      let cache2 := fun k => if k = seq then some content else state.buffer_cache k
      match diff with
      | some diff_text =>
        let counter2 := state.step_counter + 1
        let step_id := mkStepId counter2
        let actor := actor_override.getD state.default_actor
        let timestamp := time_override.getD now
        let step0 := (Step.new step_id actor timestamp).with_raw_change state.file diff_text
        let step1 :=
          match state.seq_to_step parent_seq with
          | some parent_step_id =>
            if parent_step_id ≠ "" then step0.with_parent parent_step_id else step0
          | none => step0
        let doc2 : Path := { path := { sess.doc.path with head := step_id },
                             steps := sess.doc.steps ++ [step1] }
        let s2s2 := fun k => if k = seq then some step_id else state.seq_to_step k
        let state2 : TrackState :=
          { state with buffer_cache := cache2, seq_to_step := s2s2, step_counter := counter2 }
        (Except.ok (StepResult.Created step_id), { doc := doc2, state := state2 })
      | none =>
        let inherited := (state.seq_to_step parent_seq).getD ""
        let s2s2 := fun k => if k = seq then some inherited else state.seq_to_step k
        let state2 : TrackState :=
          { state with buffer_cache := cache2, seq_to_step := s2s2 }
        (Except.ok StepResult.Skip, { sess with state := state2 })

/-- The parents list `record_step` wires for a step derived from
`parent_seq`: the singleton of the mapped step id when the mapping is present
and non-empty, else empty (a root). -/
def wiredParents (sess : Session) (parent_seq : Nat) : List String :=
  match sess.state.seq_to_step parent_seq with
  | some pid => if pid = "" then [] else [pid]
  | none => []

/-- The step `record_step` mints on a non-empty diff, written out as a plain
record. -/
def mintedStep (sess : Session) (parent_seq : Nat)
    (actor_override time_override : Option String) (now diff_text : String) : Step :=
  { step := { id := mkStepId (sess.state.step_counter + 1),
              parents := wiredParents sess parent_seq,
              actor := actor_override.getD sess.state.default_actor,
              timestamp := time_override.getD now },
    change := [(sess.state.file, { raw := some diff_text, structural := none })],
    meta := none }

/-- Core of `track visit` (`run_visit` in `cmd_track.rs`): cache the content
at `seq` if that entry is vacant, and, only when `seq` has no step mapping
and an inherit source is given, copy the mapping from the ancestor entry
(defaulting to the empty string). The on-disk session is unchanged when
nothing changed, which returning the same maps reproduces. -/
def run_visit (sess : Session) (seq : Nat) (content : String)
    (inherit_from : Option Nat) : Session :=
  let state := sess.state
  let cache2 :=
    if (state.buffer_cache seq).isSome then state.buffer_cache
    else fun k => if k = seq then some content else state.buffer_cache k
  let s2s2 :=
    if (state.seq_to_step seq).isSome then state.seq_to_step
    else
      match inherit_from with
      | some ancestor =>
        let step_id := (state.seq_to_step ancestor).getD ""
        fun k => if k = seq then some step_id else state.seq_to_step k
      | none => state.seq_to_step
  { sess with state := { state with buffer_cache := cache2, seq_to_step := s2s2 } }

/-- The `meta.get_or_insert_with(default).intent = Some(intent)` update of
`run_note`: take the existing metadata or the default, then set the intent. -/
def setIntent (m : Option StepMeta) (intent : String) : StepMeta :=
  let base := m.getD { intent := none }
  { base with intent := some intent }

/-- The `iter_mut().find(..)` update of `run_note`: set the intent on the
first step whose id matches, or report `none` if no step matches. -/
def setIntentOnFirst (steps : List Step) (head_id intent : String) : Option (List Step) :=
  match steps with
  | [] => none
  | s :: rest =>
    if s.step.id = head_id then
      some ({ s with meta := some (setIntent s.meta intent) } :: rest)
    else
      (setIntentOnFirst rest head_id intent).map (fun l => s :: l)

/-- Core of `track note` (`run_note` in `cmd_track.rs`): fails when there is
no head step yet, or when the head id is not found among the steps; else sets
the intent on the head step. -/
def run_note (sess : Session) (intent : String) : Except String Session :=
  if sess.doc.path.head = "none" then
    Except.error "no head step to annotate"
  else
    match setIntentOnFirst sess.doc.steps sess.doc.path.head intent with
    | none => Except.error "head step not found in session"
    | some steps2 => Except.ok { sess with doc := { sess.doc with steps := steps2 } }

/-! ## The Path invariant and session well-formedness -/

/-- The id and parent structure of a step list — the part of a Path the
structural invariant speaks about. -/
def shape (steps : List Step) : List (String × List String) :=
  steps.map (fun s => (s.step.id, s.step.parents))

/-- The ids of a step list, in order. -/
def stepIds (steps : List Step) : List String :=
  steps.map (fun s => s.step.id)

/-- Checks that every non-empty parent entry of every step resolves to a step
that occurs strictly earlier in the list: `seen` holds the ids of the steps
before the current one. -/
def parentsOkAux (seen : List String) : List (String × List String) → Bool
  | [] => true
  | e :: rest =>
    (e.2.all (fun p => decide (p = "") || decide (p ∈ seen))) && parentsOkAux (e.1 :: seen) rest

/-- Checks that the head is `"none"` or the id of some step in the list. -/
def headOkB (head : String) (sh : List (String × List String)) : Bool :=
  decide (head = "none") || sh.any (fun e => decide (e.1 = head))

/-- The Path invariant of the spec: the head resolves (or is `"none"`), and
every non-empty parent reference resolves to an earlier step. -/
def PathInv (doc : Path) : Prop :=
  headOkB doc.path.head (shape doc.steps) = true ∧
  parentsOkAux [] (shape doc.steps) = true

/-- Session-state side of well-formedness: every non-empty value of the
sequence-to-step mapping is the id of a step present in the Path. -/
def MappingOk (sess : Session) : Prop :=
  ∀ k v, sess.state.seq_to_step k = some v → v ≠ "" → v ∈ stepIds sess.doc.steps

/-- A well-formed session: the Path invariant together with the mapping
invariant that the engine relies on when wiring parents. -/
def SessionWF (sess : Session) : Prop :=
  PathInv sess.doc ∧ MappingOk sess

/-! ## Concrete scenario of claim C1 (spec section 8) -/

/-- Initial session of the scenario: content `"A\n"` cached at sequence 0,
no steps. -/
def c1s0 : Session :=
  init_session "A\n" "f.txt" "human:alex" none "track-c1" "2026-01-01T00:00:00Z"

/-- First call: `step(content="B\n", seq=1, parent_seq=0)`. -/
def c1r1 : Except String StepResult × Session :=
  record_step c1s0 "B\n" 1 0 none none "2026-01-01T00:01:00Z"

/-- Second call: `step(content="C\n", seq=2, parent_seq=1)`. -/
def c1r2 : Except String StepResult × Session :=
  record_step c1r1.2 "C\n" 2 1 none none "2026-01-01T00:02:00Z"

/-- Third call exactly as the claim states it: `step(content="B\n", seq=3,
parent_seq=2)`, a fresh sequence number. -/
def c1r3orig : Except String StepResult × Session :=
  record_step c1r2.2 "B\n" 3 2 none none "2026-01-01T00:03:00Z"

/-- Third call as the engine's own tests drive an undo: a revisit of the
already-cached sequence 1, `step(content="B\n", seq=1, parent_seq=2)`. -/
def c1r3 : Except String StepResult × Session :=
  record_step c1r2.2 "B\n" 1 2 none none "2026-01-01T00:03:00Z"

/-- Fourth call: `step(content="D\n", seq=4, parent_seq=1)`. -/
def c1r4 : Except String StepResult × Session :=
  record_step c1r3.2 "D\n" 4 1 none none "2026-01-01T00:04:00Z"

/-- A two-step cycle (malformed input for the claim C8 witness): each step
names the other as its parent. -/
def cycSteps : List Step :=
  [{ step := { id := "s1", parents := ["s2"], actor := "human:a",
               timestamp := "2026-01-01T00:00:00Z" }, change := [], meta := none },
   { step := { id := "s2", parents := ["s1"], actor := "human:a",
               timestamp := "2026-01-01T00:00:01Z" }, change := [], meta := none }]

/-- Demo session used by witnesses: a fresh init with content `"A\n"`. -/
def demo0 : Session :=
  init_session "A\n" "demo.txt" "human:demo" none "track-demo" "2026-01-01T00:00:00Z"

deriving instance DecidableEq for Except

/-! ## Decimal rendering lemmas -/

/-- Digit characters decode back to their digit. -/
theorem digitVal_digitChar : ∀ d, d < 10 → digitVal (digitChar d) = d := by decide

/-- Folding the decimal digits of `n` onto an accumulator computes
`acc * 10 ^ digits + n`. -/
theorem valChars_toDigitsAux : ∀ (fuel n acc : Nat), n ≤ fuel →
    (((toDigitsAux fuel n).map digitChar).reverse).foldl (fun a c => a * 10 + digitVal c) acc
      = acc * 10 ^ (toDigitsAux fuel n).length + n := by
  intro fuel
  induction fuel with
  | zero =>
    intro n acc h
    have hn : n = 0 := by omega
    subst hn
    simp [toDigitsAux, List.foldl]
    rw [digitVal_digitChar 0 (by omega)]
  | succ fuel ih =>
    intro n acc h
    by_cases h10 : n < 10
    · simp [toDigitsAux, h10, List.foldl]
      rw [digitVal_digitChar n h10]
    · have hle : n / 10 ≤ fuel := by omega
      have hstep : toDigitsAux (fuel + 1) n = n % 10 :: toDigitsAux fuel (n / 10) := by
        simp [toDigitsAux, h10]
      rw [hstep]
      simp only [List.map_cons, List.reverse_cons, List.foldl_append, List.foldl_cons,
        List.foldl_nil, List.length_cons]
      rw [ih (n / 10) acc hle]
      rw [digitVal_digitChar (n % 10) (by omega)]
      rw [pow_succ]
      have e1 : (acc * 10 ^ (toDigitsAux fuel (n / 10)).length + n / 10) * 10
          = acc * (10 ^ (toDigitsAux fuel (n / 10)).length * 10) + (n / 10) * 10 := by ring
      rw [e1, Nat.add_assoc]
      congr 1
      omega

/-- Decoding the `{:03}` rendering of `n` recovers `n`: the padding zeros
contribute nothing to the decoded value. -/
theorem valChars_pad3Chars (n : Nat) : valChars (pad3Chars n) = n := by
  unfold pad3Chars valChars natChars
  have base := valChars_toDigitsAux n n 0 (Nat.le_refl n)
  by_cases h10 : n < 10
  · simp only [h10, if_true, List.foldl_cons]
    have : (0 : Nat) * 10 + digitVal '0' = 0 := by decide
    rw [this, this]
    rw [base]
    simp
  · by_cases h100 : n < 100
    · simp only [h10, if_false, h100, if_true, List.foldl_cons]
      have : (0 : Nat) * 10 + digitVal '0' = 0 := by decide
      rw [this]
      rw [base]
      simp
    · simp only [h10, if_false, h100]
      rw [base]
      simp

/-- Minted step ids are injective in the counter value. -/
theorem mkStepId_inj (a b : Nat) (h : mkStepId a = mkStepId b) : a = b := by
  have hd : ('s' :: 't' :: 'e' :: 'p' :: '-' :: pad3Chars a)
      = ('s' :: 't' :: 'e' :: 'p' :: '-' :: pad3Chars b) := congrArg String.data h
  have hp : pad3Chars a = pad3Chars b := by
    simp only [List.cons.injEq, true_and] at hd
    exact hd
  have := congrArg valChars hp
  rwa [valChars_pad3Chars, valChars_pad3Chars] at this

/-! ## Branch lemmas for `record_step` -/

/-- Revisit branch: a sequence number already in the content cache makes
`record_step` return `Skip` with the session untouched. -/
theorem record_step_revisit (sess : Session) (content : String) (seq parent_seq : Nat)
    (aOv tOv : Option String) (now : String)
    (h : (sess.state.buffer_cache seq).isSome = true) :
    record_step sess content seq parent_seq aOv tOv now = (Except.ok StepResult.Skip, sess) := by
  simp [record_step, h]

/-- Unknown-parent branch: a fresh sequence number with an uncached parent
sequence fails, leaving the session untouched. -/
theorem record_step_no_parent (sess : Session) (content : String) (seq parent_seq : Nat)
    (aOv tOv : Option String) (now : String)
    (h1 : sess.state.buffer_cache seq = none)
    (h2 : sess.state.buffer_cache parent_seq = none) :
    record_step sess content seq parent_seq aOv tOv now =
      (Except.error ("parent seq " ++ natToString parent_seq ++ " not found in buffer cache"),
       sess) := by
  simp [record_step, h1, h2]

/-- Empty-diff branch: a fresh sequence number whose content equals the
cached parent content caches the content and propagates the step mapping,
but neither mints a step nor moves the head. -/
theorem record_step_empty_diff (sess : Session) (seq parent_seq : Nat) (pc : String)
    (aOv tOv : Option String) (now : String)
    (h1 : sess.state.buffer_cache seq = none)
    (h2 : sess.state.buffer_cache parent_seq = some pc) :
    record_step sess pc seq parent_seq aOv tOv now =
      Prod.mk (Except.ok StepResult.Skip)
        { sess with state := { sess.state with
            buffer_cache := fun k => if k = seq then some pc else sess.state.buffer_cache k,
            seq_to_step := fun k =>
              if k = seq then some ((sess.state.seq_to_step parent_seq).getD "")
              else sess.state.seq_to_step k } } := by
  simp [record_step, h1, h2, compute_diff]

/-- Created branch: a fresh sequence number with a cached parent and a
non-empty diff mints the next step, appends it, advances the head, and
updates cache, mapping and counter. -/
theorem record_step_created (sess : Session) (content : String) (seq parent_seq : Nat)
    (pc : String) (aOv tOv : Option String) (now : String)
    (h1 : sess.state.buffer_cache seq = none)
    (h2 : sess.state.buffer_cache parent_seq = some pc)
    (h3 : ¬ pc = content) :
    record_step sess content seq parent_seq aOv tOv now =
      Prod.mk (Except.ok (StepResult.Created (mkStepId (sess.state.step_counter + 1))))
        { doc := { path := { sess.doc.path with head := mkStepId (sess.state.step_counter + 1) },
                   steps := sess.doc.steps ++
                     [mintedStep sess parent_seq aOv tOv now
                       ("@@ -" ++ pc ++ " +" ++ content)] },
          state := { sess.state with
            buffer_cache := fun k => if k = seq then some content else sess.state.buffer_cache k,
            seq_to_step := fun k =>
              if k = seq then some (mkStepId (sess.state.step_counter + 1))
              else sess.state.seq_to_step k,
            step_counter := sess.state.step_counter + 1 } } := by
  cases hm : sess.state.seq_to_step parent_seq with
  | none =>
    simp [record_step, h1, h2, h3, compute_diff, hm, mintedStep, wiredParents,
      Step.new, Step.with_raw_change]
  | some pid =>
    by_cases hpid : pid = "" <;>
      simp [record_step, h1, h2, h3, compute_diff, hm, hpid, mintedStep, wiredParents,
        Step.new, Step.with_raw_change, Step.with_parent]

/-- After any successful `record_step`, the call's sequence number is in
the content cache of the resulting session. -/
theorem record_step_ok_cache (sess : Session) (c : String) (seq ps : Nat)
    (a t : Option String) (n : String) (r : StepResult) (s1 : Session)
    (h : record_step sess c seq ps a t n = (Except.ok r, s1)) :
    (s1.state.buffer_cache seq).isSome = true := by
  by_cases hs : (sess.state.buffer_cache seq).isSome = true
  · rw [record_step_revisit sess c seq ps a t n hs] at h
    have h2 : sess = s1 := congrArg Prod.snd h
    rw [← h2]
    exact hs
  · have h1 : sess.state.buffer_cache seq = none := by
      cases hc : sess.state.buffer_cache seq with
      | none => rfl
      | some v => exact absurd (by rw [hc]; rfl) hs
    cases hp : sess.state.buffer_cache ps with
    | none =>
      rw [record_step_no_parent sess c seq ps a t n h1 hp] at h
      exact absurd (congrArg Prod.fst h) (by simp)
    | some pc =>
      by_cases he : pc = c
      · subst he
        rw [record_step_empty_diff sess seq ps pc a t n h1 hp] at h
        injection h with hfst hsnd
        rw [← hsnd]
        simp
      · rw [record_step_created sess c seq ps pc a t n h1 hp he] at h
        injection h with hfst hsnd
        rw [← hsnd]
        simp

/-! ## Claim C1 -/

/-- C1 counterexample: in the scenario as the claim states it, the third
call `record_step("B\n", seq=3, parent_seq=2)` uses a fresh sequence number
and a non-empty diff against the cached content of sequence 2, so the engine
returns `Created("step-003")`, not `Skip`. -/
theorem toolpath_C1_counterexample :
    c1r3orig.1 = Except.ok (StepResult.Created "step-003") ∧
    ¬ c1r3orig.1 = Except.ok StepResult.Skip := by
  constructor
  · rfl
  · decide

/-- C1 (amended): in the scenario, the undo back to B is a revisit of the
already-cached sequence 1 — `record_step("B\n", seq=1, parent_seq=2)` — which
returns `Skip`; the subsequent calls behave exactly as the claim lists, and
`dead_ends` on the final steps with head `"step-003"` returns exactly
`["step-002"]`. -/
theorem toolpath_C1 :
    c1r1.1 = Except.ok (StepResult.Created "step-001") ∧
    c1r1.2.doc.path.head = "step-001" ∧
    (c1r1.2.doc.steps.map (fun s => s.step.parents)) = [[]] ∧
    c1r2.1 = Except.ok (StepResult.Created "step-002") ∧
    (c1r2.2.doc.steps.map (fun s => s.step.parents)) = [[], ["step-001"]] ∧
    c1r3.1 = Except.ok StepResult.Skip ∧
    c1r4.1 = Except.ok (StepResult.Created "step-003") ∧
    (c1r4.2.doc.steps.map (fun s => s.step.parents)) = [[], ["step-001"], ["step-001"]] ∧
    c1r4.2.doc.path.head = "step-003" ∧
    stepIds (dead_ends c1r4.2.doc.steps "step-003") = ["step-002"] := by
  exact ⟨rfl, rfl, rfl, rfl, rfl, rfl, rfl, rfl, rfl, rfl⟩

/-! ## Claim C2 -/

/-- C2: a `record_step` call whose sequence number is already in the content
cache returns `Skip` and mutates nothing — the persisted session is returned
unchanged; in particular, after any successful `record_step`, a second call
with the same sequence number and any content returns `Skip` and leaves the
session exactly as the first call left it. -/
theorem toolpath_C2 :
    (∀ (sess : Session) (content : String) (seq parent_seq : Nat)
        (aOv tOv : Option String) (now : String),
        (sess.state.buffer_cache seq).isSome = true →
        record_step sess content seq parent_seq aOv tOv now = (Except.ok StepResult.Skip, sess)) ∧
    (∀ (sess : Session) (ca cb : String) (seq psa psb : Nat)
        (aa ta : Option String) (na : String) (ab tb : Option String) (nb : String)
        (r1 : StepResult) (s1 : Session),
        record_step sess ca seq psa aa ta na = (Except.ok r1, s1) →
        record_step s1 cb seq psb ab tb nb = (Except.ok StepResult.Skip, s1)) := by
  constructor
  · exact record_step_revisit
  · intro sess ca cb seq psa psb aa ta na ab tb nb r1 s1 h
    exact record_step_revisit s1 cb seq psb ab tb nb
      (record_step_ok_cache sess ca seq psa aa ta na r1 s1 h)

/-- C2 witness: concrete double call with the same sequence number. -/
theorem toolpath_C2_witness :
    record_step (record_step demo0 "B\n" 1 0 none none "t1").2 "A\n" 1 2 none none "t2" =
      (Except.ok StepResult.Skip, (record_step demo0 "B\n" 1 0 none none "t1").2) :=
  toolpath_C2.2 demo0 "B\n" "A\n" 1 0 2 none none "t1" none none "t2"
    (StepResult.Created "step-001") (record_step demo0 "B\n" 1 0 none none "t1").2 rfl

/-! ## Claim C4 -/

/-- C4: a fresh sequence number whose content is identical to the cached
content at the parent sequence returns `Skip`; no step is appended and the
head does not move (the Path is unchanged), but the content is cached at
`seq` and the mapping at `seq` becomes the mapping at `parent_seq`,
defaulting to the empty string. -/
theorem toolpath_C4 (sess : Session) (seq parent_seq : Nat) (pc : String)
    (aOv tOv : Option String) (now : String)
    (h1 : sess.state.buffer_cache seq = none)
    (h2 : sess.state.buffer_cache parent_seq = some pc) :
    record_step sess pc seq parent_seq aOv tOv now =
      Prod.mk (Except.ok StepResult.Skip)
        { sess with state := { sess.state with
            buffer_cache := fun k => if k = seq then some pc else sess.state.buffer_cache k,
            seq_to_step := fun k =>
              if k = seq then some ((sess.state.seq_to_step parent_seq).getD "")
              else sess.state.seq_to_step k } } :=
  record_step_empty_diff sess seq parent_seq pc aOv tOv now h1 h2

/-- C4 witness: redelivering the initial content at a fresh sequence. -/
theorem toolpath_C4_witness :
    record_step demo0 "A\n" 1 0 none none "tw" =
      Prod.mk (Except.ok StepResult.Skip)
        { demo0 with state := { demo0.state with
            buffer_cache := fun k => if k = 1 then some "A\n" else demo0.state.buffer_cache k,
            seq_to_step := fun k =>
              if k = 1 then some ((demo0.state.seq_to_step 0).getD "")
              else demo0.state.seq_to_step k } } :=
  toolpath_C4 demo0 1 0 "A\n" none none "tw" rfl rfl

/-! ## Claim C5 -/

/-- C5: a fresh sequence number whose parent sequence is not in the content
cache fails with the unknown-parent-sequence error, and the persisted
session is returned unchanged — nothing is created, cached or advanced. -/
theorem toolpath_C5 (sess : Session) (content : String) (seq parent_seq : Nat)
    (aOv tOv : Option String) (now : String)
    (h1 : sess.state.buffer_cache seq = none)
    (h2 : sess.state.buffer_cache parent_seq = none) :
    record_step sess content seq parent_seq aOv tOv now =
      (Except.error ("parent seq " ++ natToString parent_seq ++ " not found in buffer cache"),
       sess) :=
  record_step_no_parent sess content seq parent_seq aOv tOv now h1 h2

/-- C5 witness: unknown parent sequence 7 on a fresh init session. -/
theorem toolpath_C5_witness :
    record_step demo0 "X" 5 7 none none "tw" =
      (Except.error ("parent seq " ++ natToString 7 ++ " not found in buffer cache"), demo0) :=
  toolpath_C5 demo0 "X" 5 7 none none "tw" rfl rfl

/-! ## Claim C10 -/

/-- C10: the revisit check precedes parent validation — when the sequence
number is already cached, `record_step` returns `Skip` successfully even
though the parent sequence was never cached and would otherwise be an
error. -/
theorem toolpath_C10 (sess : Session) (content : String) (seq parent_seq : Nat)
    (aOv tOv : Option String) (now : String)
    (h1 : (sess.state.buffer_cache seq).isSome = true)
    (_h2 : sess.state.buffer_cache parent_seq = none) :
    record_step sess content seq parent_seq aOv tOv now =
      (Except.ok StepResult.Skip, sess) :=
  record_step_revisit sess content seq parent_seq aOv tOv now h1

/-- C10 witness: revisit of sequence 0 with an uncached parent sequence 9. -/
theorem toolpath_C10_witness :
    record_step demo0 "B\n" 0 9 none none "tw" = (Except.ok StepResult.Skip, demo0) :=
  toolpath_C10 demo0 "B\n" 0 9 none none "tw" rfl rfl

/-! ## Lemmas about `stepLookup` -/

/-- Auxiliary induction for `stepLookup`: the fold result is the initial
accumulator or a member of the list. -/
theorem stepLookup_aux (i : String) : ∀ (l : List Step) (acc : Option Step) (s : Step),
    l.foldl (fun acc s => if s.step.id = i then some s else acc) acc = some s →
    acc = some s ∨ s ∈ l := by
  intro l
  induction l with
  | nil => intro acc s h; exact Or.inl h
  | cons x xs ih =>
    intro acc s h
    simp only [List.foldl_cons] at h
    rcases ih _ s h with h2 | h2
    · by_cases hx : x.step.id = i
      · rw [if_pos hx] at h2
        obtain rfl := Option.some.inj h2
        exact Or.inr (List.mem_cons_self x xs)
      · rw [if_neg hx] at h2
        exact Or.inl h2
    · exact Or.inr (List.mem_cons_of_mem x h2)

/-- A successful lookup returns a member of the list. -/
theorem stepLookup_mem (steps : List Step) (i : String) (s : Step)
    (h : stepLookup steps i = some s) : s ∈ steps := by
  rcases stepLookup_aux i steps none s h with h2 | h2
  · exact absurd h2 (by simp)
  · exact h2

/-- Auxiliary induction: the fold preserves the property that any returned
step has the looked-up id. -/
theorem stepLookup_id_aux (i : String) : ∀ (l : List Step) (acc : Option Step),
    (∀ t, acc = some t → t.step.id = i) → ∀ s,
    l.foldl (fun acc s => if s.step.id = i then some s else acc) acc = some s →
    s.step.id = i := by
  intro l
  induction l with
  | nil => intro acc hacc s h; exact hacc s h
  | cons x xs ih =>
    intro acc hacc s h
    simp only [List.foldl_cons] at h
    refine ih _ ?_ s h
    intro t ht
    by_cases hx : x.step.id = i
    · rw [if_pos hx] at ht
      obtain rfl := Option.some.inj ht
      exact hx
    · rw [if_neg hx] at ht
      exact hacc t ht

/-- A successful lookup returns a step bearing the looked-up id. -/
theorem stepLookup_id (steps : List Step) (i : String) (s : Step)
    (h : stepLookup steps i = some s) : s.step.id = i :=
  stepLookup_id_aux i steps none (fun t ht => absurd ht (by simp)) s h

/-- Lookup of an id carried by no step fails. -/
theorem stepLookup_eq_none (steps : List Step) (i : String) :
    (∀ s, s ∈ steps → ¬ s.step.id = i) → stepLookup steps i = none := by
  induction steps with
  | nil => intro _; rfl
  | cons x xs ih =>
    intro h
    show List.foldl _ _ (x :: xs) = none
    simp only [List.foldl_cons]
    rw [if_neg (h x (List.mem_cons_self x xs))]
    exact ih (fun s hs => h s (List.mem_cons_of_mem x hs))

/-- Lookup in a list extended on the right: the appended step wins when its
id matches (later inserts overwrite), else the original lookup decides. -/
theorem stepLookup_append_singleton (l : List Step) (a : Step) (i : String) :
    stepLookup (l ++ [a]) i = if a.step.id = i then some a else stepLookup l i := by
  unfold stepLookup
  rw [List.foldl_append]
  simp only [List.foldl_cons, List.foldl_nil]

/-- Every parent of a step of the list is in `allParents`. -/
theorem allParents_mem (steps : List Step) : ∀ (s : Step) (p : String),
    s ∈ steps → p ∈ s.step.parents → p ∈ allParents steps := by
  induction steps with
  | nil => intro s p hs _; exact absurd hs (List.not_mem_nil s)
  | cons x xs ih =>
    intro s p hs hp
    show p ∈ List.foldr _ _ (x :: xs)
    simp only [List.foldr_cons]
    rcases List.mem_cons.mp hs with rfl | hs2
    · exact List.mem_append_left _ hp
    · exact List.mem_append_right _ (ih s p hs2 hp)

/-- The parents count of any step of the list is at most `maxParents`. -/
theorem maxParents_le (steps : List Step) : ∀ s : Step, s ∈ steps →
    s.step.parents.length ≤ maxParents steps := by
  induction steps with
  | nil => intro s hs; exact absurd hs (List.not_mem_nil s)
  | cons x xs ih =>
    intro s hs
    show s.step.parents.length ≤ List.foldr _ _ (x :: xs)
    simp only [List.foldr_cons]
    rcases List.mem_cons.mp hs with rfl | hs2
    · exact Nat.le_max_left _ _
    · exact Nat.le_trans (ih s hs2) (Nat.le_max_right _ _)

/-! ## Termination of the ancestors walk -/

/-- Filtering with a stronger predicate yields a list no longer. -/
theorem length_filter_le_of_imp {α : Type} (p q : α → Bool)
    (h : ∀ a, q a = true → p a = true) :
    ∀ l : List α, (l.filter q).length ≤ (l.filter p).length := by
  intro l
  induction l with
  | nil => simp
  | cons x xs ih =>
    by_cases hq : q x = true
    · rw [List.filter_cons_of_pos hq, List.filter_cons_of_pos (h x hq)]
      simpa using ih
    · rw [List.filter_cons_of_neg (by simpa using hq)]
      cases hp : p x with
      | false =>
        rw [List.filter_cons_of_neg (by simp [hp])]
        exact ih
      | true =>
        rw [List.filter_cons_of_pos hp]
        exact Nat.le_trans ih (Nat.le_succ _)

/-- Marking a present, still-unvisited id as visited strictly shrinks the
unvisited part of the universe. -/
theorem length_filter_lt_visited (U visited : List String) (i : String)
    (hiU : i ∈ U) (hivis : i ∉ visited) :
    (U.filter (fun u => decide (u ∉ i :: visited))).length
      < (U.filter (fun u => decide (u ∉ visited))).length := by
  induction U with
  | nil => exact absurd hiU (List.not_mem_nil i)
  | cons a U ih =>
    by_cases hai : a = i
    · subst hai
      rw [List.filter_cons_of_neg (by simp), List.filter_cons_of_pos (by simp [hivis])]
      have hmono := length_filter_le_of_imp (fun u => decide (u ∉ visited))
        (fun u => decide (u ∉ a :: visited))
        (fun b hb => by
          simp only [decide_eq_true_eq, List.mem_cons, not_or] at hb ⊢
          exact hb.2) U
      simp only [List.length_cons]
      omega
    · have hiU2 : i ∈ U := by
        rcases List.mem_cons.mp hiU with h | h
        · exact absurd h.symm hai
        · exact h
      by_cases hav : a ∈ visited
      · rw [List.filter_cons_of_neg (by simp [hav]),
          List.filter_cons_of_neg (by simp [hav])]
        exact ih hiU2
      · rw [List.filter_cons_of_pos (by simp [hav, hai]),
          List.filter_cons_of_pos (by simp [hav])]
        simpa using ih hiU2

/-- Fuel adequacy: with fuel exceeding the standard measure, the walk always
returns a result — on every input, cyclic parent references included. -/
theorem ancestorsLoop_isSome (steps : List Step) (U : List String)
    (hU : ∀ i s, stepLookup steps i = some s → ∀ p, p ∈ s.step.parents → p ∈ U) :
    ∀ (fuel : Nat) (stack visited : List String),
      (∀ x, x ∈ stack → x ∈ U) →
      (U.filter (fun u => decide (u ∉ visited))).length * (maxParents steps + 2)
        + stack.length < fuel →
      (ancestorsLoop steps fuel stack visited).isSome = true := by
  intro fuel
  induction fuel with
  | zero => intro stack visited _ hlt; exact absurd hlt (Nat.not_lt_zero _)
  | succ fuel ih =>
    intro stack visited hstack hlt
    cases stack with
    | nil => simp [ancestorsLoop]
    | cons i rest =>
      by_cases hi : i ∈ visited
      · rw [ancestorsLoop, if_pos hi]
        apply ih rest visited (fun x hx => hstack x (List.mem_cons_of_mem i hx))
        obtain ⟨A, hA⟩ : ∃ x, (U.filter (fun u => decide (u ∉ visited))).length
            * (maxParents steps + 2) = x := ⟨_, rfl⟩
        rw [hA] at hlt ⊢
        simp only [List.length_cons] at hlt
        omega
      · cases hl : stepLookup steps i with
        | none =>
          rw [ancestorsLoop, if_neg hi, hl]
          apply ih rest (i :: visited) (fun x hx => hstack x (List.mem_cons_of_mem i hx))
          have hmono := length_filter_le_of_imp (fun u => decide (u ∉ visited))
            (fun u => decide (u ∉ i :: visited))
            (fun b hb => by
              simp only [decide_eq_true_eq, List.mem_cons, not_or] at hb ⊢
              exact hb.2) U
          have hmul := Nat.mul_le_mul_right (maxParents steps + 2) hmono
          obtain ⟨X, hX⟩ : ∃ x, (U.filter (fun u => decide (u ∉ i :: visited))).length
              * (maxParents steps + 2) = x := ⟨_, rfl⟩
          obtain ⟨Y, hY⟩ : ∃ x, (U.filter (fun u => decide (u ∉ visited))).length
              * (maxParents steps + 2) = x := ⟨_, rfl⟩
          rw [hX, hY] at hmul
          rw [hX]
          rw [hY] at hlt
          simp only [List.length_cons] at hlt
          omega
        | some s =>
          rw [ancestorsLoop, if_neg hi, hl]
          apply ih (s.step.parents.reverse ++ rest) (i :: visited) ?stacksub ?meas
          case stacksub =>
            intro x hx
            rcases List.mem_append.mp hx with hxp | hxr
            · exact hU i s hl x (List.mem_reverse.mp hxp)
            · exact hstack x (List.mem_cons_of_mem i hxr)
          case meas =>
            have hflt := length_filter_lt_visited U visited i
              (hstack i (List.mem_cons_self i rest)) hi
            have hpl : s.step.parents.length ≤ maxParents steps :=
              maxParents_le steps s (stepLookup_mem steps i s hl)
            have hmul := Nat.mul_le_mul_right (maxParents steps + 2)
              (Nat.succ_le_of_lt hflt)
            rw [Nat.succ_mul] at hmul
            obtain ⟨X, hX⟩ : ∃ x, (U.filter (fun u => decide (u ∉ i :: visited))).length
                * (maxParents steps + 2) = x := ⟨_, rfl⟩
            obtain ⟨Y, hY⟩ : ∃ x, (U.filter (fun u => decide (u ∉ visited))).length
                * (maxParents steps + 2) = x := ⟨_, rfl⟩
            rw [hX, hY] at hmul
            rw [hX]
            rw [hY] at hlt
            simp only [List.length_append, List.length_reverse, List.length_cons] at hlt ⊢
            omega

/-- The walk of `ancestors`, run with its standard fuel, always returns. -/
theorem ancestorsCore_isSome (steps : List Step) (head_id : String) :
    (ancestorsCore steps head_id).isSome = true := by
  unfold ancestorsCore ancestorsFuel
  apply ancestorsLoop_isSome steps (head_id :: allParents steps)
  · intro i s hl p hp
    exact List.mem_cons_of_mem _ (allParents_mem steps s p (stepLookup_mem steps i s hl) hp)
  · intro x hx
    have hx2 : x = head_id := by simpa using hx
    rw [hx2]
    exact List.mem_cons_self _ _
  · have hfe : (head_id :: allParents steps).filter (fun u => decide (u ∉ ([] : List String)))
        = head_id :: allParents steps := by
      apply List.filter_eq_self.mpr
      intro a _
      simp
    rw [hfe]
    obtain ⟨Y, hY⟩ : ∃ x, (head_id :: allParents steps).length * (maxParents steps + 2) = x :=
      ⟨_, rfl⟩
    rw [hY]
    simp only [List.length_cons, List.length_nil]
    omega

/-! ## Correctness of the ancestors walk -/

/-- Completeness and closure: on success, the result contains the visited
set and the stack, and — provided the visited set is parent-closed up to the
stack — the result is parent-closed. -/
theorem ancestorsLoop_spec (steps : List Step) :
    ∀ (fuel : Nat) (stack visited r : List String),
      ancestorsLoop steps fuel stack visited = some r →
      (∀ i, i ∈ visited → ∀ s, stepLookup steps i = some s →
        ∀ p, p ∈ s.step.parents → p ∈ visited ∨ p ∈ stack) →
      (∀ v, v ∈ visited → v ∈ r) ∧ (∀ y, y ∈ stack → y ∈ r) ∧
      (∀ i, i ∈ r → ∀ s, stepLookup steps i = some s →
        ∀ p, p ∈ s.step.parents → p ∈ r) := by
  intro fuel
  induction fuel with
  | zero => intro stack visited r h; simp [ancestorsLoop] at h
  | succ fuel ih =>
    intro stack visited r h hinv
    cases stack with
    | nil =>
      rw [ancestorsLoop] at h
      obtain rfl := Option.some.inj h
      refine ⟨fun v hv => hv, fun y hy => absurd hy (List.not_mem_nil y), ?_⟩
      intro i hi s hl p hp
      rcases hinv i hi s hl p hp with h2 | h2
      · exact h2
      · exact absurd h2 (List.not_mem_nil p)
    | cons i rest =>
      by_cases hi : i ∈ visited
      · rw [ancestorsLoop, if_pos hi] at h
        have hinvA : ∀ j, j ∈ visited → ∀ s, stepLookup steps j = some s →
            ∀ p, p ∈ s.step.parents → p ∈ visited ∨ p ∈ rest := by
          intro j hj s hl p hp
          rcases hinv j hj s hl p hp with hv | hs
          · exact Or.inl hv
          · rcases List.mem_cons.mp hs with rfl | h4
            · exact Or.inl hi
            · exact Or.inr h4
        obtain ⟨h1, h2, h3⟩ := ih rest visited r h hinvA
        refine ⟨h1, ?_, h3⟩
        intro y hy
        rcases List.mem_cons.mp hy with rfl | hy2
        · exact h1 y hi
        · exact h2 y hy2
      · cases hl : stepLookup steps i with
        | some s =>
          rw [ancestorsLoop, if_neg hi, hl] at h
          have hinvB : ∀ j, j ∈ i :: visited → ∀ s2, stepLookup steps j = some s2 →
              ∀ p, p ∈ s2.step.parents →
              p ∈ i :: visited ∨ p ∈ s.step.parents.reverse ++ rest := by
            intro j hj s2 hl2 p hp
            rcases List.mem_cons.mp hj with rfl | hj2
            · rw [hl] at hl2
              obtain rfl := Option.some.inj hl2
              exact Or.inr (List.mem_append_left _ (List.mem_reverse.mpr hp))
            · rcases hinv j hj2 s2 hl2 p hp with hv | hs2
              · exact Or.inl (List.mem_cons_of_mem i hv)
              · rcases List.mem_cons.mp hs2 with rfl | h4
                · exact Or.inl (List.mem_cons_self _ _)
                · exact Or.inr (List.mem_append_right _ h4)
          obtain ⟨h1, h2, h3⟩ := ih _ _ r h hinvB
          refine ⟨fun v hv => h1 v (List.mem_cons_of_mem i hv), ?_, h3⟩
          intro y hy
          rcases List.mem_cons.mp hy with rfl | hy2
          · exact h1 y (List.mem_cons_self _ _)
          · exact h2 y (List.mem_append_right _ hy2)
        | none =>
          rw [ancestorsLoop, if_neg hi, hl] at h
          have hinvC : ∀ j, j ∈ i :: visited → ∀ s2, stepLookup steps j = some s2 →
              ∀ p, p ∈ s2.step.parents → p ∈ i :: visited ∨ p ∈ rest := by
            intro j hj s2 hl2 p hp
            rcases List.mem_cons.mp hj with rfl | hj2
            · rw [hl] at hl2
              exact absurd hl2 (by simp)
            · rcases hinv j hj2 s2 hl2 p hp with hv | hs2
              · exact Or.inl (List.mem_cons_of_mem i hv)
              · rcases List.mem_cons.mp hs2 with rfl | h4
                · exact Or.inl (List.mem_cons_self _ _)
                · exact Or.inr h4
          obtain ⟨h1, h2, h3⟩ := ih _ _ r h hinvC
          refine ⟨fun v hv => h1 v (List.mem_cons_of_mem i hv), ?_, h3⟩
          intro y hy
          rcases List.mem_cons.mp hy with rfl | hy2
          · exact h1 y (List.mem_cons_self _ _)
          · exact h2 y hy2

/-- Soundness: on success, every id in the result was already visited or is
reachable from some id on the stack. -/
theorem ancestorsLoop_sound (steps : List Step) :
    ∀ (fuel : Nat) (stack visited r : List String),
      ancestorsLoop steps fuel stack visited = some r →
      ∀ x, x ∈ r → x ∈ visited ∨ ∃ y, y ∈ stack ∧ Reach steps y x := by
  intro fuel
  induction fuel with
  | zero => intro stack visited r h; simp [ancestorsLoop] at h
  | succ fuel ih =>
    intro stack visited r h x hxr
    cases stack with
    | nil =>
      rw [ancestorsLoop] at h
      obtain rfl := Option.some.inj h
      exact Or.inl hxr
    | cons i rest =>
      by_cases hi : i ∈ visited
      · rw [ancestorsLoop, if_pos hi] at h
        rcases ih rest visited r h x hxr with hv | ⟨y, hy, hr⟩
        · exact Or.inl hv
        · exact Or.inr ⟨y, List.mem_cons_of_mem i hy, hr⟩
      · cases hl : stepLookup steps i with
        | some s =>
          rw [ancestorsLoop, if_neg hi, hl] at h
          rcases ih _ _ r h x hxr with hv | ⟨y, hy, hr⟩
          · rcases List.mem_cons.mp hv with rfl | hv2
            · exact Or.inr ⟨x, List.mem_cons_self _ _, Reach.refl x⟩
            · exact Or.inl hv2
          · rcases List.mem_append.mp hy with hyp | hyr
            · exact Or.inr ⟨i, List.mem_cons_self _ _,
                Reach.tail s y hl (List.mem_reverse.mp hyp) hr⟩
            · exact Or.inr ⟨y, List.mem_cons_of_mem i hyr, hr⟩
        | none =>
          rw [ancestorsLoop, if_neg hi, hl] at h
          rcases ih _ _ r h x hxr with hv | ⟨y, hy, hr⟩
          · rcases List.mem_cons.mp hv with rfl | hv2
            · exact Or.inr ⟨x, List.mem_cons_self _ _, Reach.refl x⟩
            · exact Or.inl hv2
          · exact Or.inr ⟨y, List.mem_cons_of_mem i hy, hr⟩

/-- The result of the walk never lists an id twice: the visited-set check
runs before an id is recorded or expanded. -/
theorem ancestorsLoop_nodup (steps : List Step) :
    ∀ (fuel : Nat) (stack visited r : List String),
      ancestorsLoop steps fuel stack visited = some r → visited.Nodup → r.Nodup := by
  intro fuel
  induction fuel with
  | zero => intro stack visited r h; simp [ancestorsLoop] at h
  | succ fuel ih =>
    intro stack visited r h hnd
    cases stack with
    | nil =>
      rw [ancestorsLoop] at h
      obtain rfl := Option.some.inj h
      exact hnd
    | cons i rest =>
      by_cases hi : i ∈ visited
      · rw [ancestorsLoop, if_pos hi] at h
        exact ih rest visited r h hnd
      · cases hl : stepLookup steps i with
        | some s =>
          rw [ancestorsLoop, if_neg hi, hl] at h
          exact ih _ _ r h (List.nodup_cons.mpr ⟨hi, hnd⟩)
        | none =>
          rw [ancestorsLoop, if_neg hi, hl] at h
          exact ih _ _ r h (List.nodup_cons.mpr ⟨hi, hnd⟩)

/-- Membership in `ancestors` is exactly backward reachability from the
head id. -/
theorem mem_ancestors_iff (steps : List Step) (head_id : String) (x : String) :
    x ∈ ancestors steps head_id ↔ Reach steps head_id x := by
  obtain ⟨r, hr⟩ := Option.isSome_iff_exists.mp (ancestorsCore_isSome steps head_id)
  have ha : ancestors steps head_id = r := by
    unfold ancestors
    rw [hr]
    rfl
  constructor
  · intro hx
    rw [ha] at hx
    rcases ancestorsLoop_sound steps _ _ _ _ hr x hx with hv | ⟨y, hy, hrc⟩
    · exact absurd hv (List.not_mem_nil x)
    · have hy2 : y = head_id := by simpa using hy
      rw [← hy2]
      exact hrc
  · intro hrc
    rw [ha]
    obtain ⟨h1, h2, h3⟩ := ancestorsLoop_spec steps _ _ _ _ hr
      (fun i hi => absurd hi (List.not_mem_nil i))
    have hhead : head_id ∈ r := h2 head_id (List.mem_cons_self _ _)
    have aux : ∀ a b, Reach steps a b → a ∈ r → b ∈ r := by
      intro a b hab
      induction hab with
      | refl c => exact fun hc => hc
      | tail s y hls hy hyz ihr => exact fun hc => ihr (h3 _ hc s hls y hy)
    exact aux head_id x hrc hhead

/-! ## Claim C6 -/

/-- C6: `ancestors` returns the inclusive set of all step ids reachable from
the head id by following parents backward; in particular, when the head id is
not the id of any step of the collection, the result is exactly the
singleton of the head id. -/
theorem toolpath_C6 (steps : List Step) (head_id : String) :
    (∀ i, i ∈ ancestors steps head_id ↔ Reach steps head_id i) ∧
    ((∀ s, s ∈ steps → ¬ s.step.id = head_id) →
      ∀ i, i ∈ ancestors steps head_id ↔ i = head_id) := by
  refine ⟨fun i => mem_ancestors_iff steps head_id i, ?_⟩
  intro hno i
  rw [mem_ancestors_iff steps head_id i]
  constructor
  · intro h
    cases h with
    | refl => rfl
    | tail s y hl hy hr =>
      rw [stepLookup_eq_none steps head_id hno] at hl
      exact absurd hl (by simp)
  · intro h
    rw [h]
    exact Reach.refl head_id

/-- C6 witness: on the empty collection an absent head id yields exactly its
own singleton. -/
theorem toolpath_C6_witness :
    (∀ s, s ∈ ([] : List Step) → ¬ s.step.id = "h0") ∧ "h0" ∈ ancestors [] "h0" :=
  ⟨fun s hs => absurd hs (List.not_mem_nil s),
   ((toolpath_C6 [] "h0").2 (fun s hs => absurd hs (List.not_mem_nil s)) "h0").mpr rfl⟩

/-! ## Claim C7 -/

/-- C7: `dead_ends` returns exactly the steps of the collection whose id is
not in the ancestor set of the head, in input order (the result is a sublist
of the input). -/
theorem toolpath_C7 (steps : List Step) (head_id : String) :
    List.Sublist (dead_ends steps head_id) steps ∧
    (∀ s, s ∈ dead_ends steps head_id ↔
      s ∈ steps ∧ s.step.id ∉ ancestors steps head_id) := by
  constructor
  · show List.Sublist
      (steps.filter (fun s => decide (s.step.id ∉ ancestors steps head_id))) steps
    exact List.filter_sublist steps
  · intro s
    simp [dead_ends, List.mem_filter]

/-- C7 witness: with a head outside the collection, a concrete step with an
unreachable id is listed as a dead end. -/
theorem toolpath_C7_witness :
    { step := { id := "s1", parents := ["s2"], actor := "human:a",
                timestamp := "2026-01-01T00:00:00Z" },
      change := [], meta := none : Step } ∈ dead_ends cycSteps "zz" :=
  ((toolpath_C7 cycSteps "zz").2 _).mpr ⟨by decide, by decide⟩

/-! ## Claim C8 -/

/-- C8: the ancestors walk terminates on every input, including malformed
collections whose parent references form a cycle — its standard fuel is
never exhausted — and each step id is recorded at most once (the result has
no duplicates), thanks to the visited-set check performed before a step's
parents are pushed. -/
theorem toolpath_C8 (steps : List Step) (head_id : String) :
    (ancestorsCore steps head_id).isSome = true ∧
    (∀ r, ancestorsCore steps head_id = some r → r.Nodup) := by
  refine ⟨ancestorsCore_isSome steps head_id, ?_⟩
  intro r hr
  exact ancestorsLoop_nodup steps _ _ _ _ hr List.nodup_nil

/-- C8 witness: the walk completes on a two-step parent cycle, and its
result lists each id once. -/
theorem toolpath_C8_witness :
    ancestorsCore cycSteps "s1" = some ["s2", "s1"] ∧ (["s2", "s1"] : List String).Nodup :=
  ⟨rfl, (toolpath_C8 cycSteps "s1").2 ["s2", "s1"] rfl⟩

/-! ## Lemmas about the Path invariant -/

/-- Shape of a list extended on the right. -/
theorem shape_append (l : List Step) (s : Step) :
    shape (l ++ [s]) = shape l ++ [(s.step.id, s.step.parents)] := by
  simp [shape]

/-- Ids of a list extended on the right. -/
theorem stepIds_append (l : List Step) (s : Step) :
    stepIds (l ++ [s]) = stepIds l ++ [s.step.id] := by
  simp [stepIds]

/-- The ids are the first components of the shape. -/
theorem stepIds_eq_shape_map (l : List Step) :
    stepIds l = (shape l).map Prod.fst := by
  simp [stepIds, shape]

/-- Appending one entry to a checked prefix reduces to checking the entry
against the ids accumulated so far. -/
theorem parentsOkAux_append :
    ∀ (sh : List (String × List String)) (e : String × List String) (seen : List String),
    parentsOkAux seen (sh ++ [e]) =
      (parentsOkAux seen sh &&
        e.2.all (fun p => decide (p = "") ||
          decide (p ∈ (sh.map Prod.fst).reverse ++ seen))) := by
  intro sh
  induction sh with
  | nil =>
    intro e seen
    simp [parentsOkAux]
  | cons x sh ih =>
    intro e seen
    simp only [List.cons_append, parentsOkAux, List.append_eq]
    rw [ih e (x.1 :: seen)]
    have hlist : (sh.map Prod.fst).reverse ++ (x.1 :: seen)
        = ((x :: sh).map Prod.fst).reverse ++ seen := by
      simp [List.reverse_cons, List.append_assoc]
    simp only [hlist]
    rw [← Bool.and_assoc]

/-- Setting an intent changes no id and no parent: the shape survives. -/
theorem setIntentOnFirst_shape :
    ∀ (steps : List Step) (hid t : String) (steps2 : List Step),
    setIntentOnFirst steps hid t = some steps2 → shape steps2 = shape steps := by
  intro steps
  induction steps with
  | nil => intro hid t steps2 h; simp [setIntentOnFirst] at h
  | cons s rest ih =>
    intro hid t steps2 h
    unfold setIntentOnFirst at h
    by_cases hs : s.step.id = hid
    · rw [if_pos hs] at h
      obtain rfl := Option.some.inj h
      simp [shape]
    · rw [if_neg hs] at h
      cases hrec : setIntentOnFirst rest hid t with
      | none => rw [hrec] at h; simp at h
      | some l =>
        rw [hrec] at h
        simp only [Option.map_some'] at h
        obtain rfl := Option.some.inj h
        have hl := ih hid t l hrec
        simp only [shape, List.map_cons] at hl ⊢
        rw [hl]

/-- The mapping after a `visit` is either unchanged at `k`, or — when the
visited sequence had no mapping and an inherit source was given — the entry
at `k = seq` inherited from the ancestor. The content cache and the Path are
untouched by the mapping update. -/
theorem run_visit_s2s (sess : Session) (seq : Nat) (content : String)
    (inh : Option Nat) (k : Nat) :
    (run_visit sess seq content inh).state.seq_to_step k = sess.state.seq_to_step k ∨
    (∃ anc, inh = some anc ∧ k = seq ∧
      (run_visit sess seq content inh).state.seq_to_step k
        = some ((sess.state.seq_to_step anc).getD "")) := by
  by_cases h1 : (sess.state.seq_to_step seq).isSome = true
  · left
    simp [run_visit, h1]
  · cases hinh : inh with
    | none =>
      left
      simp [run_visit, h1]
    | some anc =>
      by_cases hk : k = seq
      · right
        exact ⟨anc, rfl, hk, by simp [run_visit, h1, hk]⟩
      · left
        simp [run_visit, h1, hk]

/-! ## Claim C9 -/

/-- C9: each of the four track-engine operations — `init`, `record_step`,
`visit`, `note` — keeps the session well formed: the head is `"none"` or the
id of a step present in the Path, every non-empty parent entry resolves to a
step occurring earlier in the steps list, and every non-empty mapping value
is the id of a present step. -/
theorem toolpath_C9 :
    (∀ (content file actor : String) (base : Option Base) (sid now : String),
      SessionWF (init_session content file actor base sid now)) ∧
    (∀ (sess : Session) (content : String) (seq parent_seq : Nat)
        (aOv tOv : Option String) (now : String),
      SessionWF sess →
      SessionWF (record_step sess content seq parent_seq aOv tOv now).2) ∧
    (∀ (sess : Session) (seq : Nat) (content : String) (inh : Option Nat),
      SessionWF sess → SessionWF (run_visit sess seq content inh)) ∧
    (∀ (sess : Session) (intent : String) (sess2 : Session),
      SessionWF sess → run_note sess intent = Except.ok sess2 → SessionWF sess2) := by
  refine ⟨?init, ?record, ?visit, ?note⟩
  case init =>
    intro content file actor base sid now
    refine ⟨⟨rfl, rfl⟩, ?_⟩
    intro k v hv
    simp [init_session] at hv
  case record =>
    intro sess content seq parent_seq aOv tOv now hwf
    by_cases hs : (sess.state.buffer_cache seq).isSome = true
    · rw [record_step_revisit sess content seq parent_seq aOv tOv now hs]
      exact hwf
    · have h1 : sess.state.buffer_cache seq = none := by
        cases hc : sess.state.buffer_cache seq with
        | none => rfl
        | some v => exact absurd (by rw [hc]; rfl) hs
      cases hp : sess.state.buffer_cache parent_seq with
      | none =>
        rw [record_step_no_parent sess content seq parent_seq aOv tOv now h1 hp]
        exact hwf
      | some pc =>
        obtain ⟨⟨hhd, hpar⟩, hmo⟩ := hwf
        by_cases he : pc = content
        · subst he
          rw [record_step_empty_diff sess seq parent_seq pc aOv tOv now h1 hp]
          refine ⟨⟨hhd, hpar⟩, ?_⟩
          intro k v hv hne
          show v ∈ stepIds sess.doc.steps
          have hv2 : (if k = seq then some ((sess.state.seq_to_step parent_seq).getD "")
              else sess.state.seq_to_step k) = some v := hv
          by_cases hk : k = seq
          · rw [if_pos hk] at hv2
            obtain rfl := Option.some.inj hv2
            cases hm : sess.state.seq_to_step parent_seq with
            | none =>
              rw [hm] at hne
              simp at hne
            | some w =>
              rw [hm] at hne
              have hw : w ≠ "" := by simpa using hne
              simpa using hmo parent_seq w hm hw
          · rw [if_neg hk] at hv2
            exact hmo k v hv2 hne
        · rw [record_step_created sess content seq parent_seq pc aOv tOv now h1 hp he]
          refine ⟨⟨?_, ?_⟩, ?_⟩
          · show headOkB (mkStepId (sess.state.step_counter + 1))
              (shape (sess.doc.steps ++ [mintedStep sess parent_seq aOv tOv now
                ("@@ -" ++ pc ++ " +" ++ content)])) = true
            rw [shape_append]
            simp [headOkB, mintedStep]
          · show parentsOkAux []
              (shape (sess.doc.steps ++ [mintedStep sess parent_seq aOv tOv now
                ("@@ -" ++ pc ++ " +" ++ content)])) = true
            rw [shape_append, parentsOkAux_append]
            simp only [Bool.and_eq_true]
            refine ⟨hpar, ?_⟩
            show (mintedStep sess parent_seq aOv tOv now
              ("@@ -" ++ pc ++ " +" ++ content)).step.parents.all _ = true
            have hpmem : ∀ pid, sess.state.seq_to_step parent_seq = some pid → ¬ pid = "" →
                pid ∈ (shape sess.doc.steps).map Prod.fst := by
              intro pid hm hne
              rw [← stepIds_eq_shape_map]
              exact hmo parent_seq pid hm hne
            cases hm : sess.state.seq_to_step parent_seq with
            | none => simp [mintedStep, wiredParents, hm]
            | some pid =>
              by_cases hpe : pid = ""
              · simp [mintedStep, wiredParents, hm, hpe]
              · simp only [mintedStep, wiredParents, hm, if_neg hpe, List.all_cons,
                  List.all_nil, Bool.and_true]
                have := hpmem pid hm hpe
                simp [this]
          · intro k v hv hne
            show v ∈ stepIds (sess.doc.steps ++ [mintedStep sess parent_seq aOv tOv now
              ("@@ -" ++ pc ++ " +" ++ content)])
            rw [stepIds_append]
            have hv2 : (if k = seq then some (mkStepId (sess.state.step_counter + 1))
                else sess.state.seq_to_step k) = some v := hv
            by_cases hk : k = seq
            · rw [if_pos hk] at hv2
              obtain rfl := Option.some.inj hv2
              exact List.mem_append_right _ (by simp [mintedStep])
            · rw [if_neg hk] at hv2
              exact List.mem_append_left _ (hmo k v hv2 hne)
  case visit =>
    intro sess seq content inh hwf
    obtain ⟨hpi, hmo⟩ := hwf
    refine ⟨hpi, ?_⟩
    intro k v hv hne
    show v ∈ stepIds sess.doc.steps
    rcases run_visit_s2s sess seq content inh k with h | ⟨anc, -, hk, h⟩
    · rw [h] at hv
      exact hmo k v hv hne
    · rw [h] at hv
      obtain rfl := Option.some.inj hv
      cases hm : sess.state.seq_to_step anc with
      | none =>
        rw [hm] at hne
        simp at hne
      | some w =>
        rw [hm] at hne
        have hw : w ≠ "" := by simpa using hne
        simpa using hmo anc w hm hw
  case note =>
    intro sess intent sess2 hwf hok
    unfold run_note at hok
    by_cases hh : sess.doc.path.head = "none"
    · rw [if_pos hh] at hok
      exact absurd hok (by simp)
    · rw [if_neg hh] at hok
      cases hset : setIntentOnFirst sess.doc.steps sess.doc.path.head intent with
      | none => rw [hset] at hok; exact absurd hok (by simp)
      | some steps2 =>
        rw [hset] at hok
        obtain rfl := Except.ok.inj hok
        obtain ⟨⟨hhd, hpar⟩, hmo⟩ := hwf
        have hsh := setIntentOnFirst_shape sess.doc.steps sess.doc.path.head intent steps2 hset
        refine ⟨⟨?_, ?_⟩, ?_⟩
        · show headOkB sess.doc.path.head (shape steps2) = true
          rw [hsh]
          exact hhd
        · show parentsOkAux [] (shape steps2) = true
          rw [hsh]
          exact hpar
        · intro k v hv hne
          show v ∈ stepIds steps2
          have hid : stepIds steps2 = stepIds sess.doc.steps := by
            rw [stepIds_eq_shape_map, stepIds_eq_shape_map, hsh]
          rw [hid]
          exact hmo k v hv hne

/-- C9 witness: the invariant holds for a fresh init session and is kept by
a concrete `record_step` on it. -/
theorem toolpath_C9_witness :
    SessionWF demo0 ∧ PathInv (record_step demo0 "B\n" 1 0 none none "t1").2.doc := by
  have h0 : SessionWF demo0 :=
    toolpath_C9.1 "A\n" "demo.txt" "human:demo" none "track-demo" "2026-01-01T00:00:00Z"
  exact ⟨h0, (toolpath_C9.2.1 demo0 "B\n" 1 0 none none "t1" h0).1⟩

/-! ## Claim C3 -/

/-- Reachability cannot enter an id that no resolvable step mentions as a
parent. -/
theorem reach_avoid (steps2 : List Step) (bad : String)
    (hcl : ∀ x s, ¬ x = bad → stepLookup steps2 x = some s →
      ∀ p, p ∈ s.step.parents → ¬ p = bad) :
    ∀ x y, Reach steps2 x y → ¬ x = bad → ¬ y = bad := by
  intro x y h
  induction h with
  | refl c => exact fun hx => hx
  | tail s y2 hl hy hr ih => exact fun hx => ih (hcl _ s hx hl y2 hy)

/-- In a collection extended by two fresh steps, the first fresh id is not
reachable from the second fresh step when nothing else mentions it. -/
theorem fresh_not_reachable (old : List Step) (m1 m2 : Step) (bad : String)
    (hm1 : m1.step.id = bad)
    (hm2 : ¬ m2.step.id = bad)
    (hm2p : ∀ p, p ∈ m2.step.parents → ¬ p = bad)
    (hold : ∀ s, s ∈ old → ¬ s.step.id = bad ∧ bad ∉ s.step.parents) :
    ¬ Reach ((old ++ [m1]) ++ [m2]) m2.step.id bad := by
  intro hre
  have hcl : ∀ x s, ¬ x = bad → stepLookup ((old ++ [m1]) ++ [m2]) x = some s →
      ∀ p, p ∈ s.step.parents → ¬ p = bad := by
    intro x s hx hl p hp
    rw [stepLookup_append_singleton] at hl
    by_cases hx2 : m2.step.id = x
    · rw [if_pos hx2] at hl
      obtain rfl := Option.some.inj hl
      exact hm2p p hp
    · rw [if_neg hx2] at hl
      rw [stepLookup_append_singleton] at hl
      by_cases hx1 : m1.step.id = x
      · have : x = bad := by rw [← hx1]; exact hm1
        exact absurd this hx
      · rw [if_neg hx1] at hl
        have hmem := stepLookup_mem old x s hl
        intro hpbad
        exact (hold s hmem).2 (hpbad ▸ hp)
  exact reach_avoid ((old ++ [m1]) ++ [m2]) bad hcl m2.step.id bad hre hm2 rfl

/-- C3: from any well-formed session in which the next two step ids are
fresh, two `record_step` calls with distinct fresh sequence numbers, the
same (cached) parent sequence, and contents each differing from the cached
parent content both return `Created`; the two minted steps carry identical
parents lists (a fork), the head ends as the second minted id, and
`dead_ends` with that head includes the first minted id. -/
theorem toolpath_C3 (sess : Session) (ca cb pc : String) (seq1 seq2 parent_seq : Nat)
    (a1 t1 : Option String) (n1 : String) (a2 t2 : Option String) (n2 : String)
    (hwf : SessionWF sess)
    (h1 : sess.state.buffer_cache seq1 = none)
    (h2 : sess.state.buffer_cache seq2 = none)
    (hne : ¬ seq1 = seq2)
    (hp : sess.state.buffer_cache parent_seq = some pc)
    (hc1 : ¬ pc = ca)
    (hc2 : ¬ pc = cb)
    (hfresh : ∀ s, s ∈ sess.doc.steps →
      ¬ s.step.id = mkStepId (sess.state.step_counter + 1) ∧
      mkStepId (sess.state.step_counter + 1) ∉ s.step.parents) :
    (record_step sess ca seq1 parent_seq a1 t1 n1).1 =
      Except.ok (StepResult.Created (mkStepId (sess.state.step_counter + 1))) ∧
    (record_step (record_step sess ca seq1 parent_seq a1 t1 n1).2
        cb seq2 parent_seq a2 t2 n2).1 =
      Except.ok (StepResult.Created (mkStepId (sess.state.step_counter + 2))) ∧
    shape (record_step (record_step sess ca seq1 parent_seq a1 t1 n1).2
        cb seq2 parent_seq a2 t2 n2).2.doc.steps =
      shape sess.doc.steps ++
        [(mkStepId (sess.state.step_counter + 1), wiredParents sess parent_seq),
         (mkStepId (sess.state.step_counter + 2), wiredParents sess parent_seq)] ∧
    (record_step (record_step sess ca seq1 parent_seq a1 t1 n1).2
        cb seq2 parent_seq a2 t2 n2).2.doc.path.head =
      mkStepId (sess.state.step_counter + 2) ∧
    mkStepId (sess.state.step_counter + 1) ∈ stepIds (dead_ends
      (record_step (record_step sess ca seq1 parent_seq a1 t1 n1).2
        cb seq2 parent_seq a2 t2 n2).2.doc.steps
      (record_step (record_step sess ca seq1 parent_seq a1 t1 n1).2
        cb seq2 parent_seq a2 t2 n2).2.doc.path.head) := by
  obtain ⟨⟨hhd, hpar⟩, hmo⟩ := hwf
  have hps1 : ¬ parent_seq = seq1 := by
    intro hh
    rw [hh, h1] at hp
    exact Option.noConfusion hp
  have hr1 := record_step_created sess ca seq1 parent_seq pc a1 t1 n1 h1 hp hc1
  have hcache2 : (record_step sess ca seq1 parent_seq a1 t1 n1).2.state.buffer_cache seq2
      = none := by
    rw [hr1]
    show (if seq2 = seq1 then some ca else sess.state.buffer_cache seq2) = none
    rw [if_neg (fun hh => hne hh.symm)]
    exact h2
  have hcachep : (record_step sess ca seq1 parent_seq a1 t1 n1).2.state.buffer_cache parent_seq
      = some pc := by
    rw [hr1]
    show (if parent_seq = seq1 then some ca else sess.state.buffer_cache parent_seq) = some pc
    rw [if_neg hps1]
    exact hp
  have hcounter : (record_step sess ca seq1 parent_seq a1 t1 n1).2.state.step_counter
      = sess.state.step_counter + 1 := by
    rw [hr1]
  have hs2s : (record_step sess ca seq1 parent_seq a1 t1 n1).2.state.seq_to_step parent_seq
      = sess.state.seq_to_step parent_seq := by
    rw [hr1]
    show (if parent_seq = seq1 then some (mkStepId (sess.state.step_counter + 1))
      else sess.state.seq_to_step parent_seq) = sess.state.seq_to_step parent_seq
    rw [if_neg hps1]
  have hsteps1 : (record_step sess ca seq1 parent_seq a1 t1 n1).2.doc.steps
      = sess.doc.steps ++ [mintedStep sess parent_seq a1 t1 n1 ("@@ -" ++ pc ++ " +" ++ ca)] := by
    rw [hr1]
  have hwp : wiredParents (record_step sess ca seq1 parent_seq a1 t1 n1).2 parent_seq
      = wiredParents sess parent_seq := by
    unfold wiredParents
    rw [hs2s]
  have hr2 := record_step_created (record_step sess ca seq1 parent_seq a1 t1 n1).2
    cb seq2 parent_seq pc a2 t2 n2 hcache2 hcachep hc2
  have hid12 : ¬ mkStepId (sess.state.step_counter + 2)
      = mkStepId (sess.state.step_counter + 1) := by
    intro hh
    have h12 := mkStepId_inj _ _ hh
    omega
  have hwpbad : ∀ p, p ∈ wiredParents sess parent_seq →
      ¬ p = mkStepId (sess.state.step_counter + 1) := by
    intro p hp2
    unfold wiredParents at hp2
    cases hm : sess.state.seq_to_step parent_seq with
    | none => simp only [hm] at hp2; exact absurd hp2 (List.not_mem_nil p)
    | some pid =>
      simp only [hm] at hp2
      by_cases hpe : pid = ""
      · rw [if_pos hpe] at hp2
        exact absurd hp2 (List.not_mem_nil p)
      · rw [if_neg hpe] at hp2
        have hpp : p = pid := by simpa using hp2
        have hin : pid ∈ stepIds sess.doc.steps := hmo parent_seq pid hm hpe
        obtain ⟨s, hsmem, hsid⟩ := List.mem_map.mp hin
        intro hbad
        exact (hfresh s hsmem).1 (by rw [hsid, ← hpp, hbad])
  refine ⟨?g1, ?g2, ?g3, ?g4, ?g5⟩
  case g1 =>
    rw [hr1]
  case g2 =>
    rw [hr2, hcounter]
  case g3 =>
    rw [hr2]
    show shape ((record_step sess ca seq1 parent_seq a1 t1 n1).2.doc.steps ++
        [mintedStep (record_step sess ca seq1 parent_seq a1 t1 n1).2 parent_seq a2 t2 n2
          ("@@ -" ++ pc ++ " +" ++ cb)]) = _
    rw [hsteps1, shape_append, shape_append]
    simp only [mintedStep]
    rw [hcounter, hwp, List.append_assoc]
    rfl
  case g4 =>
    rw [hr2]
    show mkStepId ((record_step sess ca seq1 parent_seq a1 t1 n1).2.state.step_counter + 1)
      = mkStepId (sess.state.step_counter + 2)
    rw [hcounter]
  case g5 =>
    rw [hr2]
    show mkStepId (sess.state.step_counter + 1) ∈ stepIds (dead_ends
      ((record_step sess ca seq1 parent_seq a1 t1 n1).2.doc.steps ++
        [mintedStep (record_step sess ca seq1 parent_seq a1 t1 n1).2 parent_seq a2 t2 n2
          ("@@ -" ++ pc ++ " +" ++ cb)])
      (mkStepId ((record_step sess ca seq1 parent_seq a1 t1 n1).2.state.step_counter + 1)))
    rw [hsteps1, hcounter]
    have hm2id : (mintedStep (record_step sess ca seq1 parent_seq a1 t1 n1).2 parent_seq
        a2 t2 n2 ("@@ -" ++ pc ++ " +" ++ cb)).step.id
        = mkStepId (sess.state.step_counter + 2) := by
      show mkStepId ((record_step sess ca seq1 parent_seq a1 t1 n1).2.state.step_counter + 1)
        = mkStepId (sess.state.step_counter + 2)
      rw [hcounter]
    have hm2par : (mintedStep (record_step sess ca seq1 parent_seq a1 t1 n1).2 parent_seq
        a2 t2 n2 ("@@ -" ++ pc ++ " +" ++ cb)).step.parents
        = wiredParents sess parent_seq := hwp
    have hnotreach : ¬ Reach
        ((sess.doc.steps ++ [mintedStep sess parent_seq a1 t1 n1 ("@@ -" ++ pc ++ " +" ++ ca)])
          ++ [mintedStep (record_step sess ca seq1 parent_seq a1 t1 n1).2 parent_seq a2 t2 n2
            ("@@ -" ++ pc ++ " +" ++ cb)])
        (mkStepId (sess.state.step_counter + 2))
        (mkStepId (sess.state.step_counter + 1)) := by
      rw [← hm2id]
      apply fresh_not_reachable
      · rfl
      · rw [hm2id]
        exact hid12
      · rw [hm2par]
        exact hwpbad
      · exact hfresh
    have hnotmem : mkStepId (sess.state.step_counter + 1) ∉ ancestors
        ((sess.doc.steps ++ [mintedStep sess parent_seq a1 t1 n1 ("@@ -" ++ pc ++ " +" ++ ca)])
          ++ [mintedStep (record_step sess ca seq1 parent_seq a1 t1 n1).2 parent_seq a2 t2 n2
            ("@@ -" ++ pc ++ " +" ++ cb)])
        (mkStepId (sess.state.step_counter + 2)) := by
      rw [mem_ancestors_iff]
      exact hnotreach
    unfold stepIds dead_ends
    refine List.mem_map.mpr ⟨mintedStep sess parent_seq a1 t1 n1 ("@@ -" ++ pc ++ " +" ++ ca),
      ?_, rfl⟩
    refine List.mem_filter.mpr ⟨?_, ?_⟩
    · exact List.mem_append_left _ (List.mem_append_right _ (List.mem_cons_self _ _))
    · exact decide_eq_true hnotmem

/-- C3 witness: a concrete fork on a fresh init session — two creations from
parent sequence 0, after which the first minted step is a dead end for the
second one's head. -/
theorem toolpath_C3_witness :
    mkStepId (demo0.state.step_counter + 1) ∈ stepIds (dead_ends
      (record_step (record_step demo0 "B\n" 1 0 none none "t1").2
        "C\n" 2 0 none none "t2").2.doc.steps
      (record_step (record_step demo0 "B\n" 1 0 none none "t1").2
        "C\n" 2 0 none none "t2").2.doc.path.head) :=
  (toolpath_C3 demo0 "B\n" "C\n" "A\n" 1 2 0 none none "t1" none none "t2"
    ⟨⟨rfl, rfl⟩, fun k v hv => absurd hv (by simp [demo0, init_session])⟩
    rfl rfl (by decide) rfl (by decide) (by decide)
    (by decide)).2.2.2.2

end Toolpath
